import Mathlib

/-!
Shallow embedding of the `@gamestdio/mathf` scalar math library
(`src/index.ts`).  JavaScript double-precision numbers are modelled by
exact rationals `ℚ` (every operation the verified claims exercise is
exact on the inputs involved); the two load-time constants built from
`Math.PI` are modelled over `ℝ`.  the JavaScript 32-bit integer coercion
(`>> 0`, the operands of `|`, `&`, `>>`) is modelled explicitly:
truncation toward zero followed by wrapping into `[-2^31, 2^31)`.
Division producing IEEE special values (`±Infinity`, `NaN`) is modelled
by an explicit value type `Mathf.JsVal`.
-/

/-- Truncation of a rational toward zero (the integer part the JavaScript
`ToInt32` starts from): floor for non-negative numbers, ceiling for
negative ones. -/
def Mathf.ratTrunc (q : ℚ) : ℤ :=
  if 0 ≤ q then ⌊q⌋ else ⌈q⌉

/-- Wrap an integer into the signed 32-bit range `[-2^31, 2^31)`, as
the JavaScript `ToInt32` does after truncation. -/
def Mathf.wrap32 (n : ℤ) : ℤ :=
  (n + 2 ^ 31) % 2 ^ 32 - 2 ^ 31

/-- Function `toInt` from the source: `value >> 0`, i.e. JavaScript `ToInt32`:
truncate toward zero, then wrap into the signed 32-bit range. -/
def Mathf.toInt (q : ℚ) : ℤ :=
  Mathf.wrap32 (Mathf.ratTrunc q)

/-- The unsigned 32-bit (twos-complement) representation of an integer,
used to interpret the JavaScript bitwise operators. -/
def Mathf.toUInt32n (x : ℤ) : ℕ :=
  (x % 2 ^ 32).toNat

/-- Reinterpret an unsigned 32-bit value as a signed 32-bit integer. -/
def Mathf.ofUInt32n (u : ℕ) : ℤ :=
  if u < 2 ^ 31 then (u : ℤ) else (u : ℤ) - 2 ^ 32

/-- JavaScript `x | y` on 32-bit integers: bitwise or of the
twos-complement representations. -/
def Mathf.jsOr (x y : ℤ) : ℤ :=
  Mathf.ofUInt32n (Nat.lor (Mathf.toUInt32n x) (Mathf.toUInt32n y))

/-- JavaScript `x & y` on 32-bit integers: bitwise and of the
twos-complement representations. -/
def Mathf.jsAnd (x y : ℤ) : ℤ :=
  Mathf.ofUInt32n (Nat.land (Mathf.toUInt32n x) (Mathf.toUInt32n y))

/-- JavaScript `x >> n`: coerce to a signed 32-bit integer, then
arithmetic right shift, which is flooring division by `2^n`. -/
def Mathf.jsShr (x : ℤ) (n : ℕ) : ℤ :=
  Int.fdiv (Mathf.wrap32 x) (2 ^ n)

/-- JavaScript `a % b` on numbers: the sign-preserving remainder
`a - b * trunc(a / b)` (for nonzero `b`). -/
def Mathf.jsMod (a b : ℚ) : ℚ :=
  a - b * (Mathf.ratTrunc (a / b) : ℚ)

/-- Function `Math.ceil` on an exact rational. -/
def Mathf.jsCeil (q : ℚ) : ℚ :=
  (⌈q⌉ : ℤ)

/-- Function `Math.round` on an exact rational: round half toward positive
infinity. -/
def Mathf.jsRound (q : ℚ) : ℚ :=
  (⌊q + 1 / 2⌋ : ℤ)

/-- Function `clamp` from the source: `value < min ? min : value > max ? max : value`. -/
def Mathf.clamp (value lo hi : ℚ) : ℚ :=
  if value < lo then lo else if value > hi then hi else value

/-- Function `clamp01` from the source: `value < 0 ? 0 : value > 1 ? 1 : value`. -/
def Mathf.clamp01 (value : ℚ) : ℚ :=
  if value < 0 then 0 else if value > 1 then 1 else value

/-- Function `lerp` from the source: `(b - a) * clamp01(t) + a`. -/
def Mathf.lerp (a b t : ℚ) : ℚ :=
  (b - a) * Mathf.clamp01 t + a

/-- Function `lerpUnclamped` from the source: outside `[0,1]` it uses the absolute
difference, `a + Math.abs(b - a) * t`; otherwise the `lerp` body. -/
def Mathf.lerpUnclamped (a b t : ℚ) : ℚ :=
  if t < 0 ∨ t > 1 then a + |b - a| * t
  else (b - a) * Mathf.clamp01 t + a

/-- Body of `nextPowerOfTwo` after the `ToInt32` coercion: return 0 if
negative, else decrement, smear the bits right by 1/2/4/8/16 with
or-assignments (32-bit operations), and increment. -/
def Mathf.nextPowerOfTwoInt (value : ℤ) : ℤ :=
  if value < 0 then 0
  else
    let v0 := value - 1
    let v1 := Mathf.jsOr v0 (Mathf.jsShr v0 1)
    let v2 := Mathf.jsOr v1 (Mathf.jsShr v1 2)
    let v3 := Mathf.jsOr v2 (Mathf.jsShr v2 4)
    let v4 := Mathf.jsOr v3 (Mathf.jsShr v3 8)
    let v5 := Mathf.jsOr v4 (Mathf.jsShr v4 16)
    v5 + 1

/-- Function `nextPowerOfTwo` from the source: `value = toInt(value)` followed by
the bit-smear algorithm. -/
def Mathf.nextPowerOfTwo (q : ℚ) : ℤ :=
  Mathf.nextPowerOfTwoInt (Mathf.toInt q)

/-- Function `closestPowerOfTwo` from the source: `next = nextPowerOfTwo(value)`;
if `next - value > next >> 2` return `next >> 1`, else `next`.  The
comparison happens in number space (`value` is the untruncated input). -/
def Mathf.closestPowerOfTwo (q : ℚ) : ℚ :=
  let nextValue := Mathf.nextPowerOfTwo q
  if (nextValue : ℚ) - q > ((Mathf.jsShr nextValue 2 : ℤ) : ℚ) then
    ((Mathf.jsShr nextValue 1 : ℤ) : ℚ)
  else (nextValue : ℚ)

/-- Function `isPowerOfTwo` from the source: `ToInt32` the argument, then test
`(value & (value - 1)) === 0`. -/
def Mathf.isPowerOfTwo (q : ℚ) : Bool :=
  let value := Mathf.toInt q
  Mathf.jsAnd value (value - 1) == 0

/-- Function `moveTowards` from the source: when `maxDelta > 0` and one of the two
strict overshoot tests holds, snap to `target`; otherwise step by
`maxDelta` away from or toward `target` depending on the order of
`current` and `target`. -/
def Mathf.moveTowards (current target maxDelta : ℚ) : ℚ :=
  if 0 < maxDelta ∧
      ((target < current ∧ current - maxDelta < target) ∨
       (target > current ∧ current + maxDelta > target)) then
    target
  else if current > target then current - maxDelta
  else current + maxDelta

/-- Function `repeat` from the source: `t > 0 ? t % length : length + t % length`
with the JavaScript sign-preserving `%`. -/
def Mathf.repeat (t len : ℚ) : ℚ :=
  if t > 0 then Mathf.jsMod t len
  else len + Mathf.jsMod t len

/-- Function `round` from the source: `ceilVal = f + 0.5`; if `ceilVal` equals
`Math.ceil(f)` return `f + 0.5` when `ceilVal % 2 === 0` and `f - 0.5`
otherwise; else return `Math.round(f)`. -/
def Mathf.round (f : ℚ) : ℚ :=
  let ceilVal := f + 1 / 2
  if ceilVal = Mathf.jsCeil f then
    if Mathf.jsMod ceilVal 2 = 0 then f + 1 / 2 else f - 1 / 2
  else Mathf.jsRound f

/-- Result type for number-valued operations that can produce the IEEE
special values `+Infinity`, `-Infinity` or `NaN`. -/
inductive Mathf.JsVal
  | num (q : ℚ)
  | posInf
  | negInf
  | nan
deriving DecidableEq

/-- Whether a `JsVal` is one of the special values (not a finite number). -/
def Mathf.JsVal.isSpecial : Mathf.JsVal → Bool
  | .num _ => false
  | _ => true

/-- JavaScript division on numbers, with the zero-denominator results of
IEEE-754 (`x / +0` is `+Infinity` for `x > 0`, `-Infinity` for `x < 0`,
and `NaN` for `x = 0`; a denominator that is exactly `b - a` with
`a = b` is the positive zero). -/
def Mathf.jsDiv (a b : ℚ) : Mathf.JsVal :=
  if b = 0 then (if 0 < a then .posInf else if a < 0 then .negInf else .nan)
  else .num (a / b)

/-- Function `inverseLerp` from the source:
`(clamp(value, Math.min(a, b), Math.max(a, b)) - a) / (b - a)`. -/
def Mathf.inverseLerp (a b value : ℚ) : Mathf.JsVal :=
  Mathf.jsDiv (Mathf.clamp value (min a b) (max a b) - a) (b - a)

/-- Constant `deg2Rad` from the source: `Math.PI * 2 / FULL_ANGLE` with
`FULL_ANGLE = 360`. -/
noncomputable def Mathf.deg2Rad : ℝ := Real.pi * 2 / 360

/-- Constant `rad2Deg` from the source: `FULL_ANGLE / (Math.PI * 2)`. -/
noncomputable def Mathf.rad2Deg : ℝ := 360 / (Real.pi * 2)

/-- Constant `Number.EPSILON`, the machine epsilon of double precision, `2^-52`. -/
noncomputable def Mathf.epsilon : ℝ := 1 / 2 ^ 52

/-- Function `approximately` from the source: `Math.abs(f1 - f2) < Number.EPSILON`. -/
def Mathf.approximately (f1 f2 : ℝ) : Prop := |f1 - f2| < Mathf.epsilon

/-- The first `lerpAngle` loop, `while (a > b + 180) b += 360`, run with
explicit fuel (`none` means the loop did not finish within `fuel` steps),
in the EXACT-ARITHMETIC idealization: `b + 360` is computed as an exact
rational sum, so every iteration makes progress.  This is the model in
which the amended C8 termination statement holds; the faithful
double-precision loop, where the additions round and can be absorbed, is
`Mathf.adjUpFuelD` below. -/
def Mathf.adjUpFuel : ℕ → ℚ → ℚ → Option ℚ
  | 0, a, b => if b + 180 < a then none else some b
  | n + 1, a, b => if b + 180 < a then Mathf.adjUpFuel n a (b + 360) else some b

/-- The second `lerpAngle` loop, `while (b > a + 180) b -= 360`, run with
explicit fuel, in the exact-arithmetic idealization (see
`Mathf.adjUpFuel`); the faithful double-precision loop is
`Mathf.adjDownFuelD` below. -/
def Mathf.adjDownFuel : ℕ → ℚ → ℚ → Option ℚ
  | 0, a, b => if a + 180 < b then none else some b
  | n + 1, a, b => if a + 180 < b then Mathf.adjDownFuel n a (b - 360) else some b

/-- Function `lerpAngle` from the source, with the two adjustment loops run on
explicit fuel in the exact-arithmetic idealization: both loops must
finish for a result to be produced, after which `lerp(a, b, t)` is
returned. -/
def Mathf.lerpAngleFuel (n1 n2 : ℕ) (a b t : ℚ) : Option ℚ :=
  (Mathf.adjUpFuel n1 a b).bind fun b1 =>
    (Mathf.adjDownFuel n2 a b1).map fun b2 => Mathf.lerp a b2 t

/-- Predicate: `r` is the least power of two that is at least `v`. -/
def Mathf.IsNextPow2 (v r : ℤ) : Prop :=
  (∃ k : ℕ, r = 2 ^ k) ∧ v ≤ r ∧ ∀ s : ℤ, (∃ k : ℕ, s = 2 ^ k) → v ≤ s → r ≤ s

/-- One round of the bit smear, `x | (x >> k)`, on naturals. -/
def Mathf.smearStep (k x : ℕ) : ℕ := x ||| (x >>> k)

/-- The full five-round bit smear of `nextPowerOfTwo` on naturals. -/
def Mathf.smearN (x : ℕ) : ℕ :=
  Mathf.smearStep 16 (Mathf.smearStep 8 (Mathf.smearStep 4 (Mathf.smearStep 2 (Mathf.smearStep 1 x))))

/-- Round a rational to the nearest integer, ties to the even integer
(the IEEE-754 default rounding applied to an integer target). -/
def Mathf.roundHalfEven (x : ℚ) : ℤ :=
  if x - ⌊x⌋ < 1 / 2 then ⌊x⌋
  else if 1 / 2 < x - ⌊x⌋ then ⌊x⌋ + 1
  else if ⌊x⌋ % 2 = 0 then ⌊x⌋ else ⌊x⌋ + 1

/-- Round a positive rational to 53 significant bits, nearest, ties to
even: the value an IEEE-754 double addition actually stores.  For
`q ≥ 1` this is exact IEEE semantics in the normal range (the binade
exponent is `log2 ⌊q⌋`, the significand is rounded at 53 bits); values
below 1 are returned exactly, which only matters for magnitudes the C8
counterexample never reaches (its loop state stays at `2^62`, far inside
the faithful range). -/
def Mathf.flRoundPos (q : ℚ) : ℚ :=
  if q < 1 then q
  else
    (Mathf.roundHalfEven (q * 2 ^ 52 / 2 ^ Nat.log2 ⌊q⌋.toNat) : ℚ)
      * 2 ^ Nat.log2 ⌊q⌋.toNat / 2 ^ 52

/-- Rounding of a rational to the nearest IEEE-754 double
(round-to-nearest, ties-to-even, 53-bit significand), extended to all
signs through the sign symmetry of IEEE rounding. -/
def Mathf.flRound (q : ℚ) : ℚ :=
  if q = 0 then 0
  else if q < 0 then - Mathf.flRoundPos (-q)
  else Mathf.flRoundPos q

/-- The first `lerpAngle` loop with the source number type taken
seriously: both the guard value `b + 180` and the update `b + 360` are
double additions, i.e. exact sums rounded by `flRound`.  Once the
spacing of doubles at `b` exceeds 720 the update is absorbed and the
loop makes no progress. -/
def Mathf.adjUpFuelD : ℕ → ℚ → ℚ → Option ℚ
  | 0, a, b => if Mathf.flRound (b + 180) < a then none else some b
  | n + 1, a, b =>
    if Mathf.flRound (b + 180) < a then Mathf.adjUpFuelD n a (Mathf.flRound (b + 360))
    else some b

/-- The second `lerpAngle` loop with double-precision guard and update
(see `Mathf.adjUpFuelD`). -/
def Mathf.adjDownFuelD : ℕ → ℚ → ℚ → Option ℚ
  | 0, a, b => if Mathf.flRound (a + 180) < b then none else some b
  | n + 1, a, b =>
    if Mathf.flRound (a + 180) < b then Mathf.adjDownFuelD n a (Mathf.flRound (b - 360))
    else some b

/-- Function `lerpAngle` from the source with the loop arithmetic at
double precision: both loops must finish for a result to be produced. -/
def Mathf.lerpAngleFuelD (n1 n2 : ℕ) (a b t : ℚ) : Option ℚ :=
  (Mathf.adjUpFuelD n1 a b).bind fun b1 =>
    (Mathf.adjDownFuelD n2 a b1).map fun b2 => Mathf.lerp a b2 t

/-- Claim C4: for every a, b, t, if t < 0 or t > 1 then
lerpUnclamped(a, b, t) = a + abs(b - a) * t (absolute difference, so the
direction follows the sign of t, not the order of a and b); otherwise it
equals lerp(a, b, t).  In particular lerpUnclamped(0, 10, 2) = 20 and
lerpUnclamped(10, 0, 2) = 30. -/
theorem claim_C4_lerpUnclamped :
    (∀ a b t : ℚ,
      ((t < 0 ∨ t > 1) → Mathf.lerpUnclamped a b t = a + |b - a| * t) ∧
      (¬(t < 0 ∨ t > 1) → Mathf.lerpUnclamped a b t = Mathf.lerp a b t)) ∧
    Mathf.lerpUnclamped 0 10 2 = 20 ∧ Mathf.lerpUnclamped 10 0 2 = 30 := by
  refine ⟨fun a b t => ⟨fun h => ?_, fun h => ?_⟩, ?_, ?_⟩
  · simp only [Mathf.lerpUnclamped, if_pos h]
  · simp only [Mathf.lerpUnclamped, if_neg h, Mathf.lerp]
  · norm_num [Mathf.lerpUnclamped]
  · norm_num [Mathf.lerpUnclamped]

/-- Witness for C4: the out-of-range branch evaluated at (0, 10, 2). -/
theorem claim_C4_lerpUnclamped_witness :
    ((2 : ℚ) < 0 ∨ (2 : ℚ) > 1) ∧ Mathf.lerpUnclamped 0 10 2 = 0 + |(10 : ℚ) - 0| * 2 :=
  ⟨Or.inr (by norm_num), (claim_C4_lerpUnclamped.1 0 10 2).1 (Or.inr (by norm_num))⟩

/-- Claim C6: for every value, closestPowerOfTwo(value) computes
next = nextPowerOfTwo(value) and returns next >> 1 when
next - value > next >> 2, and next otherwise; in particular
closestPowerOfTwo(5) = 4. -/
theorem claim_C6_closestPowerOfTwo :
    (∀ q : ℚ,
      Mathf.closestPowerOfTwo q =
        if (Mathf.nextPowerOfTwo q : ℚ) - q >
            ((Mathf.jsShr (Mathf.nextPowerOfTwo q) 2 : ℤ) : ℚ) then
          ((Mathf.jsShr (Mathf.nextPowerOfTwo q) 1 : ℤ) : ℚ)
        else (Mathf.nextPowerOfTwo q : ℚ)) ∧
    Mathf.closestPowerOfTwo 5 = 4 := by
  refine ⟨fun q => rfl, ?_⟩
  have h1 : Mathf.nextPowerOfTwo 5 = 8 := by decide
  have h2 : Mathf.jsShr 8 2 = 2 := by decide
  have h3 : Mathf.jsShr 8 1 = 4 := by decide
  simp only [Mathf.closestPowerOfTwo, h1, h2, h3]
  norm_num

/-- Claim C7: inverseLerp is a total function (never a fault); when
a = b its result is an IEEE special value (in fact NaN, which is among
±Infinity/NaN), and when a ≠ b it is the finite number
(clamp(value, min(a,b), max(a,b)) - a) / (b - a). -/
theorem claim_C7_inverseLerp (a b v : ℚ) :
    (a = b →
      Mathf.inverseLerp a b v = Mathf.JsVal.nan ∧
      (Mathf.inverseLerp a b v).isSpecial = true) ∧
    (a ≠ b →
      Mathf.inverseLerp a b v =
        Mathf.JsVal.num ((Mathf.clamp v (min a b) (max a b) - a) / (b - a))) := by
  constructor
  · intro hab
    subst hab
    have hnum : Mathf.clamp v (min a a) (max a a) - a = 0 := by
      simp only [min_self, max_self, Mathf.clamp]
      split_ifs with h1 h2
      · ring
      · ring
      · have : v = a := le_antisymm (not_lt.mp h2) (not_lt.mp h1)
        rw [this]; ring
    have heq : Mathf.inverseLerp a a v = Mathf.JsVal.nan := by
      simp only [Mathf.inverseLerp, hnum, sub_self, Mathf.jsDiv, if_pos rfl]
      norm_num
    exact ⟨heq, by rw [heq]; rfl⟩
  · intro hab
    have hden : b - a ≠ 0 := sub_ne_zero.mpr (Ne.symm hab)
    simp only [Mathf.inverseLerp, Mathf.jsDiv, if_neg hden]

/-- Witness for C7: at a = b = 1 and value 5 the result is NaN, at
a = 0, b = 2, value 1 the result is the finite quotient. -/
theorem claim_C7_inverseLerp_witness :
    (1 : ℚ) = 1 ∧ Mathf.inverseLerp 1 1 5 = Mathf.JsVal.nan :=
  ⟨rfl, ((claim_C7_inverseLerp 1 1 5).1 rfl).1⟩

/-- Claim C9: deg2Rad = 2π/360, rad2Deg = 360/(2π), and their product
round-trips to 1 within machine epsilon:
|rad2Deg * deg2Rad - 1| < epsilon, i.e.
approximately(rad2Deg * deg2Rad, 1) holds. -/
theorem claim_C9_constants :
    Mathf.deg2Rad = 2 * Real.pi / 360 ∧
    Mathf.rad2Deg = 360 / (2 * Real.pi) ∧
    |Mathf.rad2Deg * Mathf.deg2Rad - 1| < Mathf.epsilon ∧
    Mathf.approximately (Mathf.rad2Deg * Mathf.deg2Rad) 1 := by
  have hprod : Mathf.rad2Deg * Mathf.deg2Rad = 1 := by
    simp only [Mathf.rad2Deg, Mathf.deg2Rad]
    field_simp
  refine ⟨by simp only [Mathf.deg2Rad]; ring, by simp only [Mathf.rad2Deg]; ring_nf, ?_, ?_⟩
  · rw [hprod]
    simp only [Mathf.epsilon]
    norm_num
  · rw [Mathf.approximately, hprod]
    simp only [Mathf.epsilon]
    norm_num

/-- Claim C10 (implicit): every value strictly between -1 and 1
truncates to the 32-bit integer 0, and the bit test 0 & -1 = 0 then
succeeds, so isPowerOfTwo reports true for every fractional magnitude
below 1. -/
theorem claim_C10_isPowerOfTwo_fraction (q : ℚ) (h1 : -1 < q) (h2 : q < 1) :
    Mathf.isPowerOfTwo q = true := by
  have htr : Mathf.ratTrunc q = 0 := by
    simp only [Mathf.ratTrunc]
    split_ifs with h0
    · exact Int.floor_eq_zero_iff.mpr ⟨h0, h2⟩
    · exact Int.ceil_eq_zero_iff.mpr ⟨h1, le_of_not_le h0⟩
  have ht : Mathf.toInt q = 0 := by
    simp only [Mathf.toInt, htr]
    decide
  simp only [Mathf.isPowerOfTwo, ht]
  decide

/-- Witness for C10: evaluated at q = 1/2. -/
theorem claim_C10_isPowerOfTwo_fraction_witness :
    (-1 : ℚ) < 1 / 2 ∧ (1 / 2 : ℚ) < 1 ∧ Mathf.isPowerOfTwo (1 / 2) = true :=
  ⟨by norm_num, by norm_num,
    claim_C10_isPowerOfTwo_fraction (1 / 2) (by norm_num) (by norm_num)⟩

/-- Bounds of the JavaScript remainder for positive dividend: for
0 < t and 0 < len, t % len lies in [0, len). -/
theorem Mathf.jsMod_pos_bounds (t len : ℚ) (ht : 0 < t) (hlen : 0 < len) :
    0 ≤ Mathf.jsMod t len ∧ Mathf.jsMod t len < len := by
  have hq : 0 ≤ t / len := le_of_lt (div_pos ht hlen)
  have htr : Mathf.ratTrunc (t / len) = ⌊t / len⌋ := by
    simp only [Mathf.ratTrunc, if_pos hq]
  have h1 : (⌊t / len⌋ : ℚ) ≤ t / len := Int.floor_le _
  have h2 : t / len < ⌊t / len⌋ + 1 := Int.lt_floor_add_one _
  rw [le_div_iff hlen] at h1
  rw [div_lt_iff hlen] at h2
  constructor
  · simp only [Mathf.jsMod, htr]
    nlinarith
  · simp only [Mathf.jsMod, htr]
    nlinarith

/-- Bounds of the JavaScript remainder for non-positive dividend: for
t ≤ 0 and 0 < len, t % len lies in (-len, 0]. -/
theorem Mathf.jsMod_nonpos_bounds (t len : ℚ) (ht : t ≤ 0) (hlen : 0 < len) :
    -len < Mathf.jsMod t len ∧ Mathf.jsMod t len ≤ 0 := by
  by_cases hq : 0 ≤ t / len
  · have ht0 : t = 0 := by
      have : t / len ≤ 0 := div_nonpos_of_nonpos_of_nonneg ht (le_of_lt hlen)
      have hq0 : t / len = 0 := le_antisymm this hq
      field_simp at hq0
      exact hq0
    subst ht0
    constructor
    · simp only [Mathf.jsMod, Mathf.ratTrunc]
      norm_num
      linarith
    · simp only [Mathf.jsMod, Mathf.ratTrunc]
      norm_num
  · have htr : Mathf.ratTrunc (t / len) = ⌈t / len⌉ := by
      simp only [Mathf.ratTrunc, if_neg hq]
    have h1 : t / len ≤ (⌈t / len⌉ : ℚ) := Int.le_ceil _
    have h2 : (⌈t / len⌉ : ℚ) < t / len + 1 := Int.ceil_lt_add_one _
    rw [div_le_iff hlen] at h1
    have h2' : (⌈t / len⌉ : ℚ) - 1 < t / len := by linarith
    rw [lt_div_iff hlen] at h2'
    constructor
    · simp only [Mathf.jsMod, htr]
      nlinarith
    · simp only [Mathf.jsMod, htr]
      nlinarith

/-- Counterexample to C2 as stated: at t = 0, length = 5 the code takes
the t ≤ 0 branch and returns length + 0 % length = 5, which is not
strictly less than length. -/
theorem claim_C2_repeat_cex :
    ¬ (∀ t len : ℚ, 0 < len →
        0 ≤ Mathf.repeat t len ∧ Mathf.repeat t len < len) := by
  intro h
  have h5 := (h 0 5 (by norm_num)).2
  rw [show Mathf.repeat 0 5 = 5 from by
    norm_num [Mathf.repeat, Mathf.jsMod, Mathf.ratTrunc]] at h5
  exact absurd h5 (by norm_num)

/-- Claim C2 amended: for every length > 0 and every t,
repeat(t, length) lies in the closed interval [0, length]; it is
strictly below length whenever t > 0 (the value length itself can be
returned for t ≤ 0, e.g. repeat(0, 5) = 5). -/
theorem claim_C2_repeat_amended (t len : ℚ) (h : 0 < len) :
    0 ≤ Mathf.repeat t len ∧ Mathf.repeat t len ≤ len ∧
      (0 < t → Mathf.repeat t len < len) := by
  by_cases ht : t > 0
  · obtain ⟨hl, hr⟩ := Mathf.jsMod_pos_bounds t len ht h
    simp only [Mathf.repeat, if_pos ht]
    exact ⟨hl, le_of_lt hr, fun _ => hr⟩
  · obtain ⟨hl, hr⟩ := Mathf.jsMod_nonpos_bounds t len (not_lt.mp ht) h
    simp only [Mathf.repeat, if_neg ht]
    exact ⟨by linarith, by linarith, fun h0 => absurd h0 ht⟩

/-- Witness for the amended C2: at t = 7, length = 5 all three bounds
hold with the strict one active. -/
theorem claim_C2_repeat_amended_witness :
    (0 : ℚ) < 5 ∧ (0 : ℚ) < 7 ∧ Mathf.repeat 7 5 < 5 :=
  ⟨by norm_num, by norm_num,
    (claim_C2_repeat_amended 7 5 (by norm_num)).2.2 (by norm_num)⟩

/-- Counterexample to C3 as stated: with current = target = 0 and
maxDelta = 1 we have |target - current| = 0 ≤ 1, yet the code falls
through both strict snap tests and returns current + maxDelta = 1, not
the target 0. -/
theorem claim_C3_moveTowards_cex :
    ¬ (∀ current target maxDelta : ℚ, 0 < maxDelta →
        |target - current| ≤ maxDelta →
        Mathf.moveTowards current target maxDelta = target) := by
  intro h
  have h0 := h 0 0 1 (by norm_num) (by norm_num)
  rw [show Mathf.moveTowards 0 0 1 = 1 from by
    norm_num [Mathf.moveTowards]] at h0
  exact absurd h0 (by norm_num)

/-- Claim C3 amended: for maxDelta > 0, whenever current ≠ target and
|target - current| ≤ maxDelta the function returns target exactly; when
|target - current| > maxDelta it returns current - maxDelta if
current > target and current + maxDelta otherwise; and when
current = target it returns current + maxDelta (it does not snap).
In particular moveTowards(0, 10, 3) = 3 and moveTowards(8, 10, 3) = 10. -/
theorem claim_C3_moveTowards_amended (current target maxDelta : ℚ)
    (h : 0 < maxDelta) :
    (current ≠ target → |target - current| ≤ maxDelta →
        Mathf.moveTowards current target maxDelta = target) ∧
    (maxDelta < |target - current| →
        Mathf.moveTowards current target maxDelta =
          if current > target then current - maxDelta
          else current + maxDelta) ∧
    (current = target →
        Mathf.moveTowards current target maxDelta = current + maxDelta) ∧
    Mathf.moveTowards 0 10 3 = 3 ∧ Mathf.moveTowards 8 10 3 = 10 := by
  refine ⟨?_, ?_, ?_, by norm_num [Mathf.moveTowards], by norm_num [Mathf.moveTowards]⟩
  · intro hne habs
    rcases lt_or_gt_of_ne hne with hlt | hgt
    · -- current < target
      have habs' : target - current ≤ maxDelta := by
        rwa [abs_of_pos (by linarith : (0:ℚ) < target - current)] at habs
      rcases eq_or_lt_of_le habs' with heq | hstrict
      · -- exactly reaching: snap test is false, but the step lands on target
        simp only [Mathf.moveTowards]
        rw [if_neg, if_neg (by linarith : ¬ current > target)]
        · linarith
        · rintro ⟨-, ⟨h1, -⟩ | ⟨-, h2⟩⟩
          · linarith
          · linarith
      · simp only [Mathf.moveTowards]
        rw [if_pos ⟨h, Or.inr ⟨by linarith, by linarith⟩⟩]
    · -- target < current
      have habs' : current - target ≤ maxDelta := by
        rwa [abs_of_neg (by linarith : target - current < 0), neg_sub] at habs
      rcases eq_or_lt_of_le habs' with heq | hstrict
      · simp only [Mathf.moveTowards]
        rw [if_neg, if_pos (by linarith : current > target)]
        · linarith
        · rintro ⟨-, ⟨-, h1⟩ | ⟨h2, -⟩⟩
          · linarith
          · linarith
      · simp only [Mathf.moveTowards]
        rw [if_pos ⟨h, Or.inl ⟨by linarith, by linarith⟩⟩]
  · intro habs
    simp only [Mathf.moveTowards]
    rcases lt_trichotomy current target with hlt | heq | hgt
    · have habs' : maxDelta < target - current := by
        rwa [abs_of_pos (by linarith : (0:ℚ) < target - current)] at habs
      rw [if_neg, if_neg (by linarith : ¬ current > target)]
      rintro ⟨-, ⟨h1, -⟩ | ⟨-, h2⟩⟩
      · linarith
      · linarith
    · subst heq
      simp at habs
      linarith
    · have habs' : maxDelta < current - target := by
        rwa [abs_of_neg (by linarith : target - current < 0), neg_sub] at habs
      rw [if_neg, if_pos (by linarith : current > target)]
      rintro ⟨-, ⟨-, h1⟩ | ⟨h2, -⟩⟩
      · linarith
      · linarith
  · intro heq
    subst heq
    simp only [Mathf.moveTowards]
    rw [if_neg, if_neg (lt_irrefl current)]
    rintro ⟨-, ⟨h1, -⟩ | ⟨h2, -⟩⟩
    · exact absurd h1 (lt_irrefl current)
    · exact absurd h2 (lt_irrefl current)

/-- Witness for the amended C3: the snap branch applied at
(8, 10, 3), discharging every hypothesis. -/
theorem claim_C3_moveTowards_amended_witness :
    (0 : ℚ) < 3 ∧ (8 : ℚ) ≠ 10 ∧ |(10 : ℚ) - 8| ≤ 3 ∧
      Mathf.moveTowards 8 10 3 = 10 :=
  ⟨by norm_num, by norm_num, by norm_num,
    (claim_C3_moveTowards_amended 8 10 3 (by norm_num)).1 (by norm_num) (by norm_num)⟩

/-- The truncation of an integer is itself. -/
theorem Mathf.ratTrunc_intCast (z : ℤ) : Mathf.ratTrunc (z : ℚ) = z := by
  simp only [Mathf.ratTrunc]
  split_ifs with h
  · exact Int.floor_intCast z
  · exact Int.ceil_intCast z

/-- JavaScript `m % 2 === 0` on an integer-valued number is exactly
evenness of the integer (for negative odd numbers the remainder is -1,
for positive odd numbers it is 1, never 0). -/
theorem Mathf.jsMod_two_intCast (m : ℤ) :
    Mathf.jsMod (m : ℚ) 2 = 0 ↔ Even m := by
  rcases Int.even_or_odd m with he | ho
  · obtain ⟨j, hj⟩ := he
    subst hj
    have hdiv : ((j + j : ℤ) : ℚ) / 2 = (j : ℚ) := by push_cast; ring
    simp only [Mathf.jsMod, hdiv, Mathf.ratTrunc_intCast]
    constructor
    · intro _
      exact ⟨j, rfl⟩
    · intro _
      push_cast
      ring
  · obtain ⟨j, hj⟩ := ho
    subst hj
    have hdiv : ((2 * j + 1 : ℤ) : ℚ) / 2 = (1 : ℚ) / 2 + (j : ℚ) := by
      push_cast; ring
    have hodd : ¬ Even (2 * j + 1) := by
      rw [Int.even_add_one]
      simp [Int.even_mul]
    constructor
    · intro h0
      exfalso
      by_cases hsg : 0 ≤ (1 : ℚ) / 2 + (j : ℚ)
      · have : Mathf.ratTrunc (((2 * j + 1 : ℤ) : ℚ) / 2) = j := by
          rw [hdiv]
          simp only [Mathf.ratTrunc, if_pos hsg]
          rw [Int.floor_add_int]
          norm_num
        rw [Mathf.jsMod, this] at h0
        push_cast at h0
        linarith
      · have : Mathf.ratTrunc (((2 * j + 1 : ℤ) : ℚ) / 2) = j + 1 := by
          rw [hdiv]
          simp only [Mathf.ratTrunc, if_neg hsg]
          rw [Int.ceil_add_int]
          have hh : ⌈(1 : ℚ) / 2⌉ = 1 := by norm_num [Int.ceil_eq_iff]
          rw [hh]
          ring
        rw [Mathf.jsMod, this] at h0
        push_cast at h0
        linarith
    · intro h
      exact absurd h hodd

/-- Claim C5: for every f, letting ceilVal = f + 0.5, if ceilVal equals
ceil(f) (f is exactly at a .5 boundary) the result is f + 0.5 when
ceilVal is even and f - 0.5 when ceilVal is odd; otherwise the result
is the standard rounding of f (the Mathlib round, half toward +∞, which
is what Math.round performs).  In particular round(2.5) = 2 and
round(3.5) = 4. -/
theorem claim_C5_round :
    (∀ f : ℚ, f + 1 / 2 = (⌈f⌉ : ℚ) →
      (Even ⌈f⌉ → Mathf.round f = f + 1 / 2) ∧
      (¬ Even ⌈f⌉ → Mathf.round f = f - 1 / 2)) ∧
    (∀ f : ℚ, f + 1 / 2 ≠ (⌈f⌉ : ℚ) → Mathf.round f = ((round f : ℤ) : ℚ)) ∧
    Mathf.round (5 / 2) = 2 ∧ Mathf.round (7 / 2) = 4 := by
  have hceil : ∀ f : ℚ, Mathf.jsCeil f = ((⌈f⌉ : ℤ) : ℚ) := fun f => rfl
  refine ⟨?_, ?_, ?_, ?_⟩
  · intro f hf
    have hcond : f + 1 / 2 = Mathf.jsCeil f := by rw [hceil]; exact hf
    have hmod : Mathf.jsMod (f + 1 / 2) 2 = 0 ↔ Even ⌈f⌉ := by
      rw [hf]
      exact Mathf.jsMod_two_intCast ⌈f⌉
    constructor
    · intro heven
      simp only [Mathf.round]
      rw [if_pos hcond, if_pos (hmod.mpr heven)]
    · intro hodd
      simp only [Mathf.round]
      rw [if_pos hcond, if_neg (fun h0 => hodd (hmod.mp h0))]
  · intro f hf
    have hcond : ¬ (f + 1 / 2 = Mathf.jsCeil f) := by rw [hceil]; exact hf
    simp only [Mathf.round]
    rw [if_neg hcond, Mathf.jsRound, round_eq]
  · have hz : ⌈(5 / 2 : ℚ)⌉ = 3 := by norm_num [Int.ceil_eq_iff]
    have hc : Mathf.jsCeil (5 / 2 : ℚ) = 3 := by
      simp only [Mathf.jsCeil, hz]
      norm_num
    have hm : Mathf.jsMod ((5 : ℚ) / 2 + 1 / 2) 2 = 1 := by
      norm_num [Mathf.jsMod, Mathf.ratTrunc]
    simp only [Mathf.round, hc, hm]
    norm_num
  · have hz : ⌈(7 / 2 : ℚ)⌉ = 4 := by norm_num [Int.ceil_eq_iff]
    have hc : Mathf.jsCeil (7 / 2 : ℚ) = 4 := by
      simp only [Mathf.jsCeil, hz]
      norm_num
    have hm : Mathf.jsMod ((7 : ℚ) / 2 + 1 / 2) 2 = 0 := by
      norm_num [Mathf.jsMod, Mathf.ratTrunc]
    simp only [Mathf.round, hc, hm]
    norm_num

/-- Witness for C5: the odd tie branch applied at f = 5/2
(ceilVal = 3, odd), giving round(2.5) = 2. -/
theorem claim_C5_round_witness :
    ((5 : ℚ) / 2 + 1 / 2 = (⌈(5 / 2 : ℚ)⌉ : ℚ)) ∧ ¬ Even ⌈(5 / 2 : ℚ)⌉ ∧
      Mathf.round (5 / 2) = 5 / 2 - 1 / 2 := by
  have hz : ⌈(5 / 2 : ℚ)⌉ = 3 := by norm_num [Int.ceil_eq_iff]
  have h1 : (5 : ℚ) / 2 + 1 / 2 = (⌈(5 / 2 : ℚ)⌉ : ℚ) := by
    rw [hz]; norm_num
  have h2 : ¬ Even ⌈(5 / 2 : ℚ)⌉ := by
    rw [hz]; decide
  exact ⟨h1, h2, (claim_C5_round.1 (5 / 2) h1).2 h2⟩

/-- The first adjustment loop of `lerpAngle` finishes once its fuel
covers the distance: if a ≤ b + 180 + 360·n then n steps suffice. -/
theorem Mathf.adjUpFuel_isSome (n : ℕ) (a b : ℚ)
    (h : a ≤ b + 180 + 360 * n) :
    ∃ b1, Mathf.adjUpFuel n a b = some b1 := by
  induction n generalizing b with
  | zero =>
    refine ⟨b, ?_⟩
    simp only [Mathf.adjUpFuel]
    rw [if_neg]
    push_cast at h
    linarith
  | succ n ih =>
    simp only [Mathf.adjUpFuel]
    by_cases hc : b + 180 < a
    · rw [if_pos hc]
      exact ih (b + 360) (by push_cast at h ⊢; linarith)
    · rw [if_neg hc]
      exact ⟨b, rfl⟩

/-- The second adjustment loop of `lerpAngle` finishes once its fuel
covers the distance: if b ≤ a + 180 + 360·n then n steps suffice. -/
theorem Mathf.adjDownFuel_isSome (n : ℕ) (a b : ℚ)
    (h : b ≤ a + 180 + 360 * n) :
    ∃ b2, Mathf.adjDownFuel n a b = some b2 := by
  induction n generalizing b with
  | zero =>
    refine ⟨b, ?_⟩
    simp only [Mathf.adjDownFuel]
    rw [if_neg]
    push_cast at h
    linarith
  | succ n ih =>
    simp only [Mathf.adjDownFuel]
    by_cases hc : a + 180 < b
    · rw [if_pos hc]
      exact ih (b - 360) (by push_cast at h ⊢; linarith)
    · rw [if_neg hc]
      exact ⟨b, rfl⟩

/-- Every rational distance is covered by some amount of fuel. -/
theorem Mathf.exists_fuel (c : ℚ) : ∃ n : ℕ, c ≤ 360 * n := by
  obtain ⟨n, hn⟩ := exists_nat_ge (c / 360)
  refine ⟨n, ?_⟩
  rw [div_le_iff (by norm_num : (0 : ℚ) < 360)] at hn
  linarith

/-- Claim C8 amended: when each `b ± 360` update of the two adjustment
loops is computed exactly (exact-arithmetic idealization), the loops
terminate for every a, b and t: some fuel suffices for both, after
which lerp(a, b, t) is produced.  Under the IEEE double arithmetic the
source actually uses, this universal termination fails: once the
spacing of doubles at b exceeds 720 the update `b += 360` is absorbed
and the first loop can run forever (see `claim_C8_lerpAngle_cex`). -/
theorem claim_C8_lerpAngle_terminates (a b t : ℚ) :
    ∃ n1 n2 r, Mathf.lerpAngleFuel n1 n2 a b t = some r := by
  obtain ⟨n1, hn1⟩ := Mathf.exists_fuel (a - b - 180)
  obtain ⟨b1, hb1⟩ := Mathf.adjUpFuel_isSome n1 a b (by linarith)
  obtain ⟨n2, hn2⟩ := Mathf.exists_fuel (b1 - a - 180)
  obtain ⟨b2, hb2⟩ := Mathf.adjDownFuel_isSome n2 a b1 (by linarith)
  exact ⟨n1, n2, Mathf.lerp a b2 t, by
    simp [Mathf.lerpAngleFuel, hb1, hb2]⟩

/-- Absorption at the binade of 2^62: the spacing of doubles there is
2^10 = 1024, so adding any c with 0 < c < 512 to 2^62 rounds straight
back to 2^62. -/
theorem Mathf.flRound_absorb (c : ℚ) (h0 : 0 < c) (hc : c < 512) :
    Mathf.flRound ((2 : ℚ) ^ 62 + c) = (2 : ℚ) ^ 62 := by
  rw [show ((2 : ℚ) ^ 62) = 4611686018427387904 from by norm_num]
  have hpos : (0 : ℚ) < 4611686018427387904 + c := by linarith
  rw [Mathf.flRound, if_neg hpos.ne', if_neg (not_lt.mpr hpos.le),
    Mathf.flRoundPos, if_neg (by push_neg; linarith : ¬ (4611686018427387904 + c < 1))]
  have hc0 : (0 : ℤ) ≤ ⌊c⌋ := Int.floor_nonneg.mpr h0.le
  have hc511 : ⌊c⌋ < 512 := Int.floor_lt.mpr (by exact_mod_cast hc)
  have hfq : ⌊(4611686018427387904 : ℚ) + c⌋ = 4611686018427387904 + ⌊c⌋ := by
    rw [show (4611686018427387904 : ℚ) + c = c + ((4611686018427387904 : ℤ) : ℚ) from by
      push_cast; ring]
    rw [Int.floor_add_int]
    ring
  have htn : (⌊(4611686018427387904 : ℚ) + c⌋).toNat = 4611686018427387904 + ⌊c⌋.toNat := by
    rw [hfq]
    omega
  have hlog : Nat.log2 (4611686018427387904 + ⌊c⌋.toNat) = 62 := by
    have hne : 4611686018427387904 + ⌊c⌋.toNat ≠ 0 := by omega
    have hlo : (62 : ℕ) ≤ Nat.log2 (4611686018427387904 + ⌊c⌋.toNat) :=
      (Nat.le_log2 hne).mpr (by norm_num)
    have hhi : Nat.log2 (4611686018427387904 + ⌊c⌋.toNat) < 63 :=
      (Nat.log2_lt hne).mpr (by norm_num; omega)
    omega
  rw [htn, hlog]
  have hscaled : ((4611686018427387904 : ℚ) + c) * 2 ^ 52 / 2 ^ 62 =
      4503599627370496 + c / 1024 := by
    field_simp
    ring
  rw [hscaled]
  have hfx : ⌊(4503599627370496 : ℚ) + c / 1024⌋ = 4503599627370496 := by
    rw [show (4503599627370496 : ℚ) + c / 1024 = c / 1024 + ((4503599627370496 : ℤ) : ℚ) from by
      push_cast; ring]
    rw [Int.floor_add_int]
    have : ⌊c / 1024⌋ = 0 := Int.floor_eq_zero_iff.mpr
      ⟨by positivity, by rw [div_lt_one (by norm_num : (0:ℚ) < 1024)]; linarith⟩
    rw [this]
    ring
  rw [Mathf.roundHalfEven, hfx]
  rw [if_pos (by
    push_cast
    have hsmall : c / 1024 < 1 / 2 := by
      rw [div_lt_iff (by norm_num : (0:ℚ) < 1024)]
      linarith
    linarith : (4503599627370496 : ℚ) + c / 1024 - ((4503599627370496 : ℤ) : ℚ) < 1 / 2)]
  push_cast
  norm_num

/-- At a = 2^63, b = 2^62 the first double-precision loop never exits:
the guard (rounded) value b + 180 stays 2^62 < a, and the update b + 360
is absorbed back to 2^62, so no amount of fuel reaches the exit. -/
theorem Mathf.adjUpFuelD_stall (n : ℕ) :
    Mathf.adjUpFuelD n ((2 : ℚ) ^ 63) ((2 : ℚ) ^ 62) = none := by
  have h180 : Mathf.flRound ((2 : ℚ) ^ 62 + 180) = (2 : ℚ) ^ 62 :=
    Mathf.flRound_absorb 180 (by norm_num) (by norm_num)
  have h360 : Mathf.flRound ((2 : ℚ) ^ 62 + 360) = (2 : ℚ) ^ 62 :=
    Mathf.flRound_absorb 360 (by norm_num) (by norm_num)
  have hguard : Mathf.flRound ((2 : ℚ) ^ 62 + 180) < (2 : ℚ) ^ 63 := by
    rw [h180]
    norm_num
  induction n with
  | zero =>
    simp only [Mathf.adjUpFuelD]
    rw [if_pos hguard]
  | succ n ih =>
    simp only [Mathf.adjUpFuelD]
    rw [if_pos hguard, h360]
    exact ih

/-- Counterexample to C8 as stated: the source loops act on IEEE
doubles, and at the finite inputs a = 2^63, b = 2^62 the double update
b += 360 makes no progress (the spacing of doubles at 2^62 is 1024 and
360 < 512, so the sum rounds back to b) while the guard a > b + 180
stays true, so lerpAngle never terminates: no fuel yields a result. -/
theorem claim_C8_lerpAngle_cex :
    ¬ ∃ n1 n2 r, Mathf.lerpAngleFuelD n1 n2 ((2 : ℚ) ^ 63) ((2 : ℚ) ^ 62) 0 = some r := by
  rintro ⟨n1, n2, r, h⟩
  simp [Mathf.lerpAngleFuelD, Mathf.adjUpFuelD_stall n1] at h

/-- wrap32 is the identity on the signed 32-bit range. -/
theorem Mathf.wrap32_eq_self (x : ℤ) (h1 : -2 ^ 31 ≤ x) (h2 : x < 2 ^ 31) :
    Mathf.wrap32 x = x := by
  simp only [Mathf.wrap32]
  rw [Int.emod_eq_of_lt (by linarith) (by linarith)]
  ring

/-- The unsigned view of a small natural is itself. -/
theorem Mathf.toUInt32n_natCast (n : ℕ) (h : n < 2 ^ 32) :
    Mathf.toUInt32n (n : ℤ) = n := by
  simp only [Mathf.toUInt32n]
  rw [Int.emod_eq_of_lt (by positivity) (by exact_mod_cast h)]
  simp

/-- JavaScript or on naturals below 2^31 is the natural bitwise or. -/
theorem Mathf.jsOr_natCast (m n : ℕ) (hm : m < 2 ^ 31) (hn : n < 2 ^ 31) :
    Mathf.jsOr (m : ℤ) (n : ℤ) = ((m ||| n : ℕ) : ℤ) := by
  have hm32 : m < 2 ^ 32 := lt_trans hm (by norm_num)
  have hn32 : n < 2 ^ 32 := lt_trans hn (by norm_num)
  simp only [Mathf.jsOr, Mathf.toUInt32n_natCast m hm32, Mathf.toUInt32n_natCast n hn32,
    Mathf.ofUInt32n]
  rw [if_pos (show m.lor n < 2 ^ 31 from Nat.or_lt_two_pow hm hn)]
  rfl

/-- JavaScript arithmetic shift right on naturals below 2^31 is the
natural shift. -/
theorem Mathf.jsShr_natCast (n k : ℕ) (h : n < 2 ^ 31) :
    Mathf.jsShr (n : ℤ) k = ((n >>> k : ℕ) : ℤ) := by
  simp only [Mathf.jsShr]
  rw [Mathf.wrap32_eq_self _
    (le_trans (by norm_num : (-2 ^ 31 : ℤ) ≤ 0) (Int.natCast_nonneg n))
    (by exact_mod_cast h)]
  rw [show ((2 : ℤ) ^ k) = ((2 ^ k : ℕ) : ℤ) from by push_cast; ring]
  rw [← Int.ofNat_fdiv]
  rw [Nat.shiftRight_eq_div_pow]

/-- One source-level smear round on a natural below 2^31 equals the
natural-level `smearStep`, and the result stays below 2^31. -/
theorem Mathf.smear_stage (k y : ℕ) (hy : y < 2 ^ 31) :
    Mathf.jsOr (y : ℤ) (Mathf.jsShr (y : ℤ) k) = ((Mathf.smearStep k y : ℕ) : ℤ) ∧
      Mathf.smearStep k y < 2 ^ 31 := by
  have hshift : (y >>> k) < 2 ^ 31 :=
    lt_of_le_of_lt
      (by rw [Nat.shiftRight_eq_div_pow]; exact Nat.div_le_self _ _) hy
  constructor
  · rw [Mathf.jsShr_natCast y k hy, Mathf.jsOr_natCast y _ hy hshift]
    rfl
  · exact Nat.or_lt_two_pow hy hshift

/-- On a positive 32-bit value the source bit-smear computes the
natural-level `smearN` of `v - 1`, plus one. -/
theorem Mathf.nextPowerOfTwoInt_eq_smear (v : ℤ) (h1 : 0 < v) (h2 : v < 2 ^ 31) :
    Mathf.nextPowerOfTwoInt v = ((Mathf.smearN (v - 1).toNat : ℕ) : ℤ) + 1 := by
  have hvx : ((v - 1).toNat : ℤ) = v - 1 := Int.toNat_of_nonneg (by omega)
  have hx31 : (v - 1).toNat < 2 ^ 31 := by omega
  have s1 := Mathf.smear_stage 1 (v - 1).toNat hx31
  have s2 := Mathf.smear_stage 2 _ s1.2
  have s4 := Mathf.smear_stage 4 _ s2.2
  have s8 := Mathf.smear_stage 8 _ s4.2
  have s16 := Mathf.smear_stage 16 _ s8.2
  simp only [Mathf.nextPowerOfTwoInt, if_neg (by omega : ¬ v < 0)]
  rw [show v - 1 = ((v - 1).toNat : ℤ) from hvx.symm]
  rw [s1.1, s2.1, s4.1, s8.1, s16.1]
  rfl

/-- A smear round ors each bit with the bit k places above it. -/
theorem Mathf.smearStep_testBit (k x i : ℕ) :
    (Mathf.smearStep k x).testBit i = (x.testBit i || x.testBit (i + k)) := by
  simp only [Mathf.smearStep, Nat.testBit_or, Nat.testBit_shiftRight]
  rw [Nat.add_comm k i]

/-- If bit i of y collects the bits of x at i..i+D-1, then one more smear round
with shift D collects the bits of x at i..i+2D-1. -/
theorem Mathf.smearStep_spec (x y D : ℕ)
    (hy : ∀ i, (y.testBit i = true ↔ ∃ d, d < D ∧ x.testBit (i + d) = true)) :
    ∀ i, ((Mathf.smearStep D y).testBit i = true ↔
      ∃ d, d < 2 * D ∧ x.testBit (i + d) = true) := by
  intro i
  rw [Mathf.smearStep_testBit, Bool.or_eq_true, hy i, hy (i + D)]
  constructor
  · rintro (⟨d, hd, h⟩ | ⟨d, hd, h⟩)
    · exact ⟨d, by omega, h⟩
    · refine ⟨D + d, by omega, ?_⟩
      rwa [← Nat.add_assoc]
  · rintro ⟨d, hd, h⟩
    by_cases hdD : d < D
    · exact Or.inl ⟨d, hdD, h⟩
    · refine Or.inr ⟨d - D, by omega, ?_⟩
      have he : i + D + (d - D) = i + d := by omega
      rwa [he]

/-- After the five rounds with shifts 1, 2, 4, 8, 16, bit i of the smear
is the or of the bits of x at i..i+31. -/
theorem Mathf.smearN_testBit (x i : ℕ) :
    ((Mathf.smearN x).testBit i = true ↔ ∃ d, d < 32 ∧ x.testBit (i + d) = true) := by
  have b0 : ∀ j, (x.testBit j = true ↔ ∃ d, d < 1 ∧ x.testBit (j + d) = true) := by
    intro j
    constructor
    · intro h
      exact ⟨0, Nat.zero_lt_one, by simpa using h⟩
    · rintro ⟨d, hd, h⟩
      have hd0 : d = 0 := by omega
      subst hd0
      simpa using h
  have b1 := Mathf.smearStep_spec x x 1 b0
  have b2 := Mathf.smearStep_spec x (Mathf.smearStep 1 x) 2 b1
  have b3 := Mathf.smearStep_spec x (Mathf.smearStep 2 (Mathf.smearStep 1 x)) 4 b2
  have b4 := Mathf.smearStep_spec x
    (Mathf.smearStep 4 (Mathf.smearStep 2 (Mathf.smearStep 1 x))) 8 b3
  have b5 := Mathf.smearStep_spec x
    (Mathf.smearStep 8 (Mathf.smearStep 4 (Mathf.smearStep 2 (Mathf.smearStep 1 x)))) 16 b4
  exact b5 i

/-- The top set bit of a positive natural is at position log2. -/
theorem Mathf.testBit_log2_self (x : ℕ) (hx : x ≠ 0) : x.testBit x.log2 = true := by
  have h1 : 2 ^ x.log2 ≤ x := Nat.log2_self_le hx
  have h2 : x < 2 ^ (x.log2 + 1) := Nat.lt_log2_self
  have h2' : x < 2 ^ x.log2 * 2 := by rwa [Nat.pow_succ] at h2
  have hdiv : x / 2 ^ x.log2 = 1 := Nat.div_eq_of_lt_le (by omega) (by omega)
  rw [Nat.testBit_to_div_mod, hdiv]
  rfl

/-- The smear of a positive natural below 2^31 fills all bits up to and
including its top bit: it equals 2^(log2 x + 1) - 1. -/
theorem Mathf.smearN_eq (x : ℕ) (hx0 : x ≠ 0) (hx31 : x < 2 ^ 31) :
    Mathf.smearN x = 2 ^ (x.log2 + 1) - 1 := by
  have hlog : x.log2 < 31 := (Nat.log2_lt hx0).mpr hx31
  apply Nat.eq_of_testBit_eq
  intro i
  rw [Nat.testBit_two_pow_sub_one]
  by_cases hi : i < x.log2 + 1
  · rw [decide_eq_true hi, Mathf.smearN_testBit]
    refine ⟨x.log2 - i, by omega, ?_⟩
    rw [show i + (x.log2 - i) = x.log2 by omega]
    exact Mathf.testBit_log2_self x hx0
  · rw [decide_eq_false hi]
    apply Bool.eq_false_iff.mpr
    intro hsm
    rw [Mathf.smearN_testBit] at hsm
    obtain ⟨d, hd, hbit⟩ := hsm
    have hpow : (2 : ℕ) ^ (x.log2 + 1) ≤ 2 ^ (i + d) :=
      Nat.pow_le_pow_right (by norm_num) (by omega)
    have hfalse := Nat.testBit_lt_two_pow (lt_of_lt_of_le Nat.lt_log2_self hpow)
    rw [hfalse] at hbit
    cases hbit

/-- The values produced by `toInt` lie in the signed 32-bit range. -/
theorem Mathf.toInt_range (q : ℚ) :
    -2 ^ 31 ≤ Mathf.toInt q ∧ Mathf.toInt q < 2 ^ 31 := by
  have h1 : 0 ≤ (Mathf.ratTrunc q + 2 ^ 31) % 2 ^ 32 :=
    Int.emod_nonneg _ (by norm_num)
  have h2 : (Mathf.ratTrunc q + 2 ^ 31) % 2 ^ 32 < 2 ^ 32 :=
    Int.emod_lt_of_pos _ (by norm_num)
  simp only [Mathf.toInt, Mathf.wrap32]
  norm_num at h1 h2 ⊢
  omega

/-- Correctness of the smear algorithm on a positive 32-bit input: the
result is the least power of two that is at least the input. -/
theorem Mathf.nextPowerOfTwoInt_isNext (v : ℤ) (h1 : 0 < v) (h2 : v < 2 ^ 31) :
    Mathf.IsNextPow2 v (Mathf.nextPowerOfTwoInt v) := by
  have hvx : ((v - 1).toNat : ℤ) = v - 1 := Int.toNat_of_nonneg (by omega)
  have hx31 : (v - 1).toNat < 2 ^ 31 := by omega
  rw [Mathf.nextPowerOfTwoInt_eq_smear v h1 h2]
  by_cases hx0 : (v - 1).toNat = 0
  · have hv1 : v = 1 := by omega
    have hz : Mathf.smearN (v - 1).toNat = 0 := by rw [hx0]; rfl
    rw [hz, hv1]
    refine ⟨⟨0, by norm_num⟩, by norm_num, ?_⟩
    rintro s ⟨k, hk⟩ hs
    subst hk
    have := pow_pos (show (0 : ℤ) < 2 by norm_num) k
    omega
  · set x := (v - 1).toNat with hxdef
    rw [Mathf.smearN_eq x hx0 hx31]
    have hone : (1 : ℕ) ≤ 2 ^ (x.log2 + 1) := Nat.one_le_two_pow
    have hcast : (((2 ^ (x.log2 + 1) - 1 : ℕ)) : ℤ) + 1 = (2 : ℤ) ^ (x.log2 + 1) := by
      push_cast [hone]
      ring
    rw [hcast]
    have hlt : x < 2 ^ (x.log2 + 1) := Nat.lt_log2_self
    have hltz : (x : ℤ) < (2 : ℤ) ^ (x.log2 + 1) := by exact_mod_cast hlt
    refine ⟨⟨x.log2 + 1, rfl⟩, by omega, ?_⟩
    rintro s ⟨k, hk⟩ hs
    subst hk
    by_cases hkle : k ≤ x.log2
    · exfalso
      have hle : (2 : ℤ) ^ k ≤ 2 ^ x.log2 := pow_le_pow_right (by norm_num) hkle
      have hx2 : (2 : ℕ) ^ x.log2 ≤ x := Nat.log2_self_le hx0
      have hx2' : (2 : ℤ) ^ x.log2 ≤ (x : ℤ) := by exact_mod_cast hx2
      omega
    · exact pow_le_pow_right (by norm_num) (by omega)

/-- Counterexample to C1 as stated: at input 0 the truncation is the
non-negative integer 0, but nextPowerOfTwo returns 0, which is not a
power of two at all, hence not the smallest power of two ≥ 0 (that
would be 1). -/
theorem claim_C1_nextPowerOfTwo_cex :
    Mathf.toInt 0 = 0 ∧ Mathf.nextPowerOfTwo 0 = 0 ∧
      ¬ Mathf.IsNextPow2 (Mathf.toInt 0) (Mathf.nextPowerOfTwo 0) := by
  have ht : Mathf.toInt 0 = 0 := by decide
  have hn : Mathf.nextPowerOfTwo 0 = 0 := by decide
  refine ⟨ht, hn, ?_⟩
  rw [ht, hn]
  rintro ⟨⟨k, hk⟩, -, -⟩
  have := pow_pos (show (0 : ℤ) < 2 by norm_num) k
  omega

/-- Claim C1 amended: nextPowerOfTwo first truncates its argument to a
32-bit integer (toward zero); for negative truncation it returns 0, for
truncation 0 it returns 0 (not the smallest power of two ≥ 0, which
would be 1), and for positive truncation it returns the smallest power
of two ≥ the truncated value (no 32-bit wraparound can occur: the
truncation is at most 2^31 - 1 and the result at most 2^31).  In
particular nextPowerOfTwo(0) = 0, nextPowerOfTwo(1) = 1,
nextPowerOfTwo(5) = 8 and nextPowerOfTwo(-3) = 0. -/
theorem claim_C1_nextPowerOfTwo_amended :
    (∀ q : ℚ, Mathf.toInt q < 0 → Mathf.nextPowerOfTwo q = 0) ∧
    (∀ q : ℚ, Mathf.toInt q = 0 → Mathf.nextPowerOfTwo q = 0) ∧
    (∀ q : ℚ, 0 < Mathf.toInt q →
      Mathf.IsNextPow2 (Mathf.toInt q) (Mathf.nextPowerOfTwo q)) ∧
    Mathf.nextPowerOfTwo 0 = 0 ∧ Mathf.nextPowerOfTwo 1 = 1 ∧
    Mathf.nextPowerOfTwo 5 = 8 ∧ Mathf.nextPowerOfTwo (-3) = 0 := by
  refine ⟨?_, ?_, ?_, by decide, by decide, by decide, by decide⟩
  · intro q h
    rw [Mathf.nextPowerOfTwo]
    simp only [Mathf.nextPowerOfTwoInt, if_pos h]
  · intro q h
    rw [Mathf.nextPowerOfTwo, h]
    decide
  · intro q h
    rw [Mathf.nextPowerOfTwo]
    exact Mathf.nextPowerOfTwoInt_isNext (Mathf.toInt q) h (Mathf.toInt_range q).2

/-- Witness for the amended C1: the positive branch applied at q = 5,
where the truncation is 5 and the result 8 is the least power of two
at least 5. -/
theorem claim_C1_nextPowerOfTwo_amended_witness :
    0 < Mathf.toInt 5 ∧ Mathf.IsNextPow2 (Mathf.toInt 5) (Mathf.nextPowerOfTwo 5) :=
  ⟨by decide, claim_C1_nextPowerOfTwo_amended.2.2.1 5 (by decide)⟩
